import Mathlib

/-!
Shallow embedding of the Lolocaust validator (src/main.py): ledger event
parsing, windowed unstake scoring, weight normalization, and projection of
unique-identity weights onto the positional coldkey vector, together with
proofs of the specification's testable properties.

Decimal amounts, prices, scores and weights are modelled as rationals.
-/

/-- Event action labels: `sell` models the string `'sell'` (from raw label
`"UNDELEGATE"`), `buy` models `'buy'` (from `"DELEGATE"`). -/
inductive EventAction where
  | sell
  | buy
deriving DecidableEq, Repr

/-- One normalized ledger record, as built by `events` in src/main.py. -/
structure DelegationEvent where
  block : Int
  timestamp : String
  action : EventAction
  coldkey : String
  hotkey : String
  amount : ℚ
  price : ℚ
deriving DecidableEq, Repr

/-- A JSON field of a raw ledger record: absent from the record, present but
not convertible to the required numeric type (conversion raises), or a value. -/
inductive JsonField (α : Type) where
  | missing
  | malformed
  | val (a : α)
deriving DecidableEq, Repr

/-- Model of `int(event.get('block_number', 0))`: a missing field defaults to
0, a non-numeric field raises `ValueError` (parse failure), a value is kept. -/
def parseIntField : JsonField Int → Option Int
  | .missing => some 0
  | .malformed => none
  | .val n => some n

/-- Model of `float(event.get(field, 0))`: a missing field defaults to 0, a
non-numeric field raises `ValueError` (parse failure), a value is kept. -/
def parseNumField : JsonField ℚ → Option ℚ
  | .missing => some 0
  | .malformed => none
  | .val q => some q

/-- One raw record of the ledger response's `data` array. String fields read
with `.get(key, '')` are `Option String` (`none` = absent, defaulted to `""`);
`nominator_ss58`/`delegate_ss58` stand for the nested `nominator.ss58` and
`delegate.ss58` fields, `none` when the nested field or its parent is absent. -/
structure RawRecord where
  block_number : JsonField Int
  timestamp : Option String
  raw_action : Option String
  nominator_ss58 : Option String
  delegate_ss58 : Option String
  amount : JsonField ℚ
  alpha_price_in_tao : JsonField ℚ
deriving DecidableEq, Repr

/-- The body of the per-record loop of `events` (src/main.py lines 63-98):
`none` when the record is skipped, by the `continue` on an unknown action
label or by the `except (ValueError, KeyError, TypeError)` handler on a
field conversion failure. -/
def parseRecord (event : RawRecord) : Option DelegationEvent :=
  match parseIntField event.block_number with
  | none => none
  | some block =>
    match (if event.raw_action.getD "" = "UNDELEGATE" then some EventAction.sell
           else if event.raw_action.getD "" = "DELEGATE" then some EventAction.buy
           else none) with
    | none => none
    | some action =>
      match parseNumField event.amount, parseNumField event.alpha_price_in_tao with
      | some amount, some price =>
        some {
          block := block
          timestamp := event.timestamp.getD ""
          action := action
          coldkey := event.nominator_ss58.getD ""
          hotkey := event.delegate_ss58.getD ""
          amount := amount / 10 ^ 10
          price := price
        }
      | _, _ => none

/-- Outcome of the HTTP exchange in `events`: a `requests.RequestException`
(connection error or non-2xx status via `raise_for_status`), a `ValueError`
from `response.json()`, or a decoded body whose `data` array holds the
raw records (`json_data.get('data', [])`). -/
inductive LedgerResponse where
  | transportError
  | jsonError
  | ok (data : List RawRecord)

/-- Model of `events(config, coldkey)` (src/main.py lines 27-100), applied to
the response the ledger service returns for the queried coldkey: on a
transport or JSON-decoding failure the error is logged and `[]` is returned;
otherwise each raw record is parsed in order and failed records are skipped. -/
def events (resp : LedgerResponse) : List DelegationEvent :=
  match resp with
  | .transportError => []
  | .jsonError => []
  | .ok data => data.filterMap parseRecord

/-- Model of `compute_unstake_value(config, coldkey, start_block)`
(src/main.py lines 102-125); `ledger` maps each coldkey to the response the
taostats API returns for it. -/
def compute_unstake_value (ledger : String → LedgerResponse) (coldkey : String)
    (start_block : Int) : ℚ :=
  (events (ledger coldkey)).foldl
    (fun total_value event =>
      if start_block ≤ event.block ∧ event.action = EventAction.sell then
        total_value + event.amount * event.price
      else total_value)
    0

/-- Model of `scores_to_weights(scores)` (src/main.py lines 127-154). -/
def scores_to_weights (scores : List ℚ) : List ℚ :=
  let adjusted_scores := scores.map (fun score => if score > 0 then score else 0)
  let total := adjusted_scores.sum
  if total > 0 then adjusted_scores.map (fun score => score / total)
  else List.replicate scores.length 0

/-- The metagraph fields the main loop reads (src/main.py lines 177-214). -/
structure NetworkSnapshot where
  uids : List Nat
  coldkeys : List String
  tempo : Int
  last_step : Int
  blocks_since_last_step : Int

/-- Model of `unique_weights.get(cold, 0)` on the dict built by
`dict(zip(unique_keys, normalized_weights_list))`, as an association list. -/
def dictGet (d : List (String × ℚ)) (key : String) : ℚ :=
  match d.find? (fun p => p.1 == key) with
  | some p => p.2
  | none => 0

/-- Model of the projection loop of `main` (src/main.py lines 208-213):
`coldkey_counts = Counter(metagraph.coldkeys)` and, per position,
`unique_weights.get(cold, 0) / coldkey_counts[cold]`. -/
def final_weights (unique_weights : List (String × ℚ)) (coldkeys : List String) :
    List ℚ :=
  coldkeys.map (fun cold => dictGet unique_weights cold / (coldkeys.count cold : ℚ))

/-- One iteration of the main loop's computation branch (src/main.py lines
184-214): when `blocks_since_last_step >= tempo - 2`, score each unique
coldkey since `last_step`, normalize, project, and return the final weight
vector; otherwise do nothing. -/
def main_step (ledger : String → LedgerResponse) (metagraph : NetworkSnapshot) :
    Option (List ℚ) :=
  if metagraph.tempo - 2 ≤ metagraph.blocks_since_last_step then
    let start_block := metagraph.last_step
    let unique_keys := metagraph.coldkeys.dedup
    let unique_scores_list :=
      unique_keys.map (fun cold => compute_unstake_value ledger cold start_block)
    let normalized_weights_list := scores_to_weights unique_scores_list
    let unique_weights := unique_keys.zip normalized_weights_list
    some (final_weights unique_weights metagraph.coldkeys)
  else none

/-- A fully valid UNDELEGATE record: raw amount 50000000000 converts to
5 tao. -/
def validSellRecord : RawRecord :=
  { block_number := .val 100, timestamp := some "t",
    raw_action := some "UNDELEGATE", nominator_ss58 := some "A",
    delegate_ss58 := some "H", amount := .val 50000000000,
    alpha_price_in_tao := .val 2 }

/-- The event `validSellRecord` parses to. -/
def sellEvent : DelegationEvent :=
  { block := 100, timestamp := "t", action := .sell, coldkey := "A",
    hotkey := "H", amount := 5, price := 2 }

/-- An UNDELEGATE record whose `amount` field is absent. -/
def missingAmountRecord : RawRecord :=
  { block_number := .val 101, timestamp := some "t",
    raw_action := some "UNDELEGATE", nominator_ss58 := some "A",
    delegate_ss58 := some "H", amount := .missing,
    alpha_price_in_tao := .val 2 }

/-- The event `missingAmountRecord` parses to: amount defaults to 0. -/
def missingAmountEvent : DelegationEvent :=
  { block := 101, timestamp := "t", action := .sell, coldkey := "A",
    hotkey := "H", amount := 0, price := 2 }

/-- An UNDELEGATE record whose `amount` field is present but non-numeric. -/
def malformedAmountRecord : RawRecord :=
  { block_number := .val 103, timestamp := some "t",
    raw_action := some "UNDELEGATE", nominator_ss58 := some "A",
    delegate_ss58 := some "H", amount := .malformed,
    alpha_price_in_tao := .val 2 }

/-- A DELEGATE record with no nested `nominator.ss58` field. -/
def missingNominatorRecord : RawRecord :=
  { block_number := .val 102, timestamp := some "t",
    raw_action := some "DELEGATE", nominator_ss58 := none,
    delegate_ss58 := some "H", amount := .val 20000000000,
    alpha_price_in_tao := .val 1 }

/-- The event `missingNominatorRecord` parses to: coldkey defaults to `""`. -/
def missingNominatorEvent : DelegationEvent :=
  { block := 102, timestamp := "t", action := .buy, coldkey := "",
    hotkey := "H", amount := 2, price := 1 }

/-- A record whose raw action label is neither UNDELEGATE nor DELEGATE. -/
def unknownActionRecord : RawRecord :=
  { block_number := .val 104, timestamp := some "t",
    raw_action := some "TRANSFER", nominator_ss58 := some "A",
    delegate_ss58 := some "H", amount := .val 50000000000,
    alpha_price_in_tao := .val 2 }

/-! ## Helper lemmas about `scores_to_weights` -/

/-- Every adjusted score is nonnegative. -/
lemma adjusted_nonneg (scores : List ℚ) :
    ∀ x ∈ scores.map (fun score => if score > 0 then score else 0), 0 ≤ x := by
  intro x hx
  rcases List.mem_map.mp hx with ⟨s, _, rfl⟩
  by_cases h : s > 0
  · simp only [h, if_true]
    linarith
  · simp [h]

/-- Normalization preserves the length of the score list. -/
lemma scores_to_weights_length (scores : List ℚ) :
    (scores_to_weights scores).length = scores.length := by
  unfold scores_to_weights
  by_cases h : (scores.map (fun score => if score > 0 then score else 0)).sum > 0 <;>
    simp [h]

/-- If some score is positive, the adjusted total is positive. -/
lemma adjusted_sum_pos (scores : List ℚ) (h : ∃ s ∈ scores, 0 < s) :
    0 < (scores.map (fun score => if score > 0 then score else 0)).sum := by
  rcases h with ⟨s, hs, hpos⟩
  have hmem : s ∈ scores.map (fun score => if score > 0 then score else 0) := by
    refine List.mem_map.mpr ⟨s, hs, ?_⟩
    simp [hpos]
  have := List.single_le_sum (adjusted_nonneg scores) s hmem
  linarith

/-- Sum of a list divided elementwise. -/
lemma sum_map_div (l : List ℚ) (t : ℚ) :
    (l.map (fun x => x / t)).sum = l.sum / t := by
  induction l with
  | nil => simp
  | cons a l ih => simp [ih, add_div]

/-- If no score is positive, every adjusted score is zero. -/
lemma adjusted_all_zero (scores : List ℚ) (h : ∀ s ∈ scores, s ≤ 0) :
    scores.map (fun score => if score > 0 then score else 0) =
      List.replicate scores.length 0 := by
  induction scores with
  | nil => simp
  | cons a l ih =>
    have ha : ¬ a > 0 := by have := h a (by simp); linarith
    simp only [List.map_cons, List.length_cons, List.replicate_succ, ha, if_false]
    exact congrArg _ (ih (fun s hs => h s (by simp [hs])))

/-- C1: `scores_to_weights` preserves length, returns only nonnegative
entries, sums to exactly 1 when some input score is positive, and returns the
all-zero vector (summing to 0) when no input score is positive. -/
theorem scores_to_weights_spec (scores : List ℚ) :
    (scores_to_weights scores).length = scores.length ∧
    (∀ w ∈ scores_to_weights scores, 0 ≤ w) ∧
    ((∃ s ∈ scores, 0 < s) → (scores_to_weights scores).sum = 1) ∧
    ((∀ s ∈ scores, s ≤ 0) →
      (scores_to_weights scores).sum = 0 ∧ ∀ w ∈ scores_to_weights scores, w = 0) := by
  refine ⟨scores_to_weights_length scores, ?_, ?_, ?_⟩
  · intro w hw
    unfold scores_to_weights at hw
    by_cases h : (scores.map (fun score => if score > 0 then score else 0)).sum > 0
    · simp only [h, if_true] at hw
      rcases List.mem_map.mp hw with ⟨s, hs, rfl⟩
      exact div_nonneg (adjusted_nonneg scores s hs) (le_of_lt h)
    · simp only [h, if_false] at hw
      simp [List.eq_of_mem_replicate hw]
  · intro hpos
    have ht := adjusted_sum_pos scores hpos
    unfold scores_to_weights
    simp only [ht, if_true]
    rw [sum_map_div]
    exact div_self (ne_of_gt ht)
  · intro hnp
    have hz := adjusted_all_zero scores hnp
    have ht : ¬ (scores.map (fun score => if score > 0 then score else 0)).sum > 0 := by
      rw [hz]
      simp
    unfold scores_to_weights
    simp only [ht, if_false]
    constructor
    · simp
    · intro w hw
      exact List.eq_of_mem_replicate hw

/-- Witness for C1 at concrete inputs. -/
theorem scores_to_weights_spec_witness :
    (scores_to_weights [2, -1, 3]).sum = 1 ∧
    (scores_to_weights [0, -3]).sum = 0 := by
  constructor
  · exact (scores_to_weights_spec [2, -1, 3]).2.2.1 ⟨2, by norm_num, by norm_num⟩
  · exact ((scores_to_weights_spec [0, -3]).2.2.2 (by norm_num)).1

/-- Positional formula for a normalized weight when the adjusted total is
positive. -/
lemma stw_getD_of_total_pos (scores : List ℚ) (i : Nat) (hi : i < scores.length)
    (ht : 0 < (scores.map (fun score => if score > 0 then score else 0)).sum) :
    (scores_to_weights scores).getD i 0 =
      (if scores.getD i 0 > 0 then scores.getD i 0 else 0) /
        (scores.map (fun score => if score > 0 then score else 0)).sum := by
  unfold scores_to_weights
  simp only [ht, if_true]
  rw [List.getD_eq_getElem?_getD, List.getD_eq_getElem?_getD]
  simp [List.getElem?_map, List.getElem?_eq_getElem hi]

/-- C8: relative ordering of positive scores is preserved by normalization. -/
theorem scores_to_weights_monotone (scores : List ℚ) (i j : Nat)
    (hi : i < scores.length) (hj : j < scores.length)
    (hpi : 0 < scores.getD i 0) (hpj : 0 < scores.getD j 0)
    (hle : scores.getD i 0 ≤ scores.getD j 0) :
    (scores_to_weights scores).getD i 0 ≤ (scores_to_weights scores).getD j 0 := by
  have hmem : scores.getD i 0 ∈ scores := by
    rw [List.getD_eq_getElem?_getD, List.getElem?_eq_getElem hi]
    exact List.getElem_mem hi
  have ht := adjusted_sum_pos scores ⟨scores.getD i 0, hmem, hpi⟩
  rw [stw_getD_of_total_pos scores i hi ht, stw_getD_of_total_pos scores j hj ht]
  simp only [hpi, hpj, if_true]
  exact (div_le_div_iff_of_pos_right ht).mpr hle

/-- Witness for C8 at a concrete input. -/
theorem scores_to_weights_monotone_witness :
    (scores_to_weights [1, 2]).getD 0 0 ≤ (scores_to_weights [1, 2]).getD 1 0 :=
  scores_to_weights_monotone [1, 2] 0 1 (by norm_num) (by norm_num)
    (by norm_num [List.getD]) (by norm_num [List.getD]) (by norm_num [List.getD])

/-- C10: when some score is positive, an output entry is strictly positive
exactly at the positions whose input score is strictly positive. -/
theorem scores_to_weights_pos_iff (scores : List ℚ) (hpos : ∃ s ∈ scores, 0 < s)
    (i : Nat) (hi : i < scores.length) :
    0 < (scores_to_weights scores).getD i 0 ↔ 0 < scores.getD i 0 := by
  have ht := adjusted_sum_pos scores hpos
  rw [stw_getD_of_total_pos scores i hi ht]
  by_cases h : scores.getD i 0 > 0
  · rw [if_pos h]
    exact ⟨fun _ => h, fun _ => div_pos h ht⟩
  · rw [if_neg h, zero_div]
    simp only [lt_self_iff_false, false_iff]
    exact h

/-- Witness for C10 at a concrete input. -/
theorem scores_to_weights_pos_iff_witness :
    (0 < (scores_to_weights [0, 5]).getD 1 0 ↔ 0 < ([0, 5] : List ℚ).getD 1 0) :=
  scores_to_weights_pos_iff [0, 5] ⟨5, by norm_num, by norm_num⟩ 1 (by norm_num)

/-! ## Scheduling trigger (C4) -/

/-- C4: the main loop computes a cycle exactly when
`blocks_since_last_step >= tempo - 2`; with `tempo = 360`, a value of 358
triggers a cycle and 357 does not. -/
theorem main_step_trigger :
    (∀ ledger metagraph, (main_step ledger metagraph).isSome = true ↔
      metagraph.tempo - 2 ≤ metagraph.blocks_since_last_step) ∧
    (∀ ledger metagraph, metagraph.tempo = 360 →
      metagraph.blocks_since_last_step = 358 →
      (main_step ledger metagraph).isSome = true) ∧
    (∀ ledger metagraph, metagraph.tempo = 360 →
      metagraph.blocks_since_last_step = 357 →
      main_step ledger metagraph = none) := by
  refine ⟨?_, ?_, ?_⟩
  · intro ledger metagraph
    by_cases h : metagraph.tempo - 2 ≤ metagraph.blocks_since_last_step <;>
      simp [main_step, h]
  · intro ledger metagraph h1 h2
    simp only [main_step, h1, h2]
    norm_num
  · intro ledger metagraph h1 h2
    simp only [main_step, h1, h2]
    norm_num

/-- Witness for C4 at concrete snapshots. -/
theorem main_step_trigger_witness :
    (main_step (fun _ => LedgerResponse.transportError)
      ⟨[0], ["A"], 360, 100, 358⟩).isSome = true ∧
    main_step (fun _ => LedgerResponse.transportError)
      ⟨[0], ["A"], 360, 100, 357⟩ = none :=
  ⟨main_step_trigger.2.1 (fun _ => LedgerResponse.transportError)
      ⟨[0], ["A"], 360, 100, 358⟩ rfl rfl,
   main_step_trigger.2.2 (fun _ => LedgerResponse.transportError)
      ⟨[0], ["A"], 360, 100, 357⟩ rfl rfl⟩

/-! ## Unstake value (C3) -/

/-- The conditional-accumulation fold of `compute_unstake_value` equals the
initial value plus the sum of `amount * price` over the qualifying events. -/
lemma foldl_sell_sum (start_block : Int) (l : List DelegationEvent) (init : ℚ) :
    l.foldl
      (fun total_value event =>
        if start_block ≤ event.block ∧ event.action = EventAction.sell then
          total_value + event.amount * event.price
        else total_value) init =
    init + ((l.filter
        (fun event => decide
          (start_block ≤ event.block ∧ event.action = EventAction.sell))).map
      (fun event => event.amount * event.price)).sum := by
  induction l generalizing init with
  | nil => simp
  | cons e l ih =>
    by_cases h : start_block ≤ e.block ∧ e.action = EventAction.sell
    · rw [List.foldl_cons, if_pos h, ih, List.filter_cons_of_pos (by simp [h]),
        List.map_cons, List.sum_cons]
      ring
    · rw [List.foldl_cons, if_neg h, ih, List.filter_cons_of_neg (by simp [h])]

/-- C3: `compute_unstake_value` returns the sum of `amount * price` over
exactly the fetched events whose action is sell and whose block is at least
`start_block` (so an event at `start_block` itself contributes and earlier or
buy events contribute nothing), and returns 0 when no event is fetched. -/
theorem compute_unstake_value_spec (ledger : String → LedgerResponse)
    (coldkey : String) (start_block : Int) :
    compute_unstake_value ledger coldkey start_block =
      (((events (ledger coldkey)).filter
          (fun event => decide
            (start_block ≤ event.block ∧ event.action = EventAction.sell))).map
        (fun event => event.amount * event.price)).sum ∧
    (events (ledger coldkey) = [] →
      compute_unstake_value ledger coldkey start_block = 0) := by
  constructor
  · rw [compute_unstake_value, foldl_sell_sum]
    ring
  · intro h
    rw [compute_unstake_value, h]
    rfl

/-- Witness for C3 at a concrete input. -/
theorem compute_unstake_value_spec_witness :
    compute_unstake_value (fun _ => LedgerResponse.transportError) "A" 5 = 0 :=
  (compute_unstake_value_spec (fun _ => LedgerResponse.transportError) "A" 5).2 rfl

/-! ## Projection (C2, C9) -/

/-- Summing the first components of the pairs of `(l.map f).zip l` whose
second component is `c` gives `count c` copies of `f c`. -/
lemma sum_filter_zip_map (f : String → ℚ) (l : List String) (c : String) :
    ((((l.map f).zip l).filter (fun p => p.2 == c)).map Prod.fst).sum =
      (l.count c : ℚ) * f c := by
  induction l with
  | nil => simp
  | cons a t ih =>
    by_cases h : a = c
    · subst h
      rw [List.map_cons, List.zip_cons_cons, List.filter_cons_of_pos (by simp),
        List.map_cons, List.sum_cons, ih, List.count_cons_self]
      push_cast
      ring
    · rw [List.map_cons, List.zip_cons_cons,
        List.filter_cons_of_neg (by simp [h]), ih, List.count_cons_of_ne]
      exact fun hc => h hc.symm

/-- C2: for any identity `c` occurring in `coldkeys`, the projected entries at
the positions holding `c` sum to `c`'s value in the unique-weight mapping, and
the projected vector has one entry per position of `coldkeys`. -/
theorem final_weights_mass (d : List (String × ℚ)) (coldkeys : List String)
    (c : String) (hc : c ∈ coldkeys) :
    ((((final_weights d coldkeys).zip coldkeys).filter
        (fun p => p.2 == c)).map Prod.fst).sum = dictGet d c ∧
    (final_weights d coldkeys).length = coldkeys.length := by
  constructor
  · rw [final_weights, sum_filter_zip_map]
    have hcount : 0 < coldkeys.count c := List.count_pos_iff.mpr hc
    have hne : (coldkeys.count c : ℚ) ≠ 0 := by
      exact_mod_cast Nat.pos_iff_ne_zero.mp hcount
    rw [mul_comm]
    exact div_mul_cancel₀ _ hne
  · simp [final_weights]

/-- Witness for C2 at a concrete mapping and snapshot. -/
theorem final_weights_mass_witness :
    ((((final_weights [("A", 1/2)] ["A", "B", "A"]).zip ["A", "B", "A"]).filter
        (fun p => p.2 == "A")).map Prod.fst).sum = dictGet [("A", 1/2)] "A" ∧
    (final_weights [("A", 1/2)] ["A", "B", "A"]).length =
      (["A", "B", "A"] : List String).length :=
  final_weights_mass [("A", 1/2)] ["A", "B", "A"] "A" (by simp)

/-- C9: the divisor used at each projection position is the occurrence count
of that position's coldkey in the coldkeys list itself, and it is at least 1
because the coldkey looked up is an element of that list. -/
theorem final_weights_divisor_pos (d : List (String × ℚ)) (coldkeys : List String)
    (i : Nat) (hi : i < coldkeys.length) :
    0 < coldkeys.count (coldkeys.getD i "") ∧
    (final_weights d coldkeys).getD i 0 =
      dictGet d (coldkeys.getD i "") /
        (coldkeys.count (coldkeys.getD i "") : ℚ) := by
  have hmem : coldkeys.getD i "" ∈ coldkeys := by
    rw [List.getD_eq_getElem?_getD, List.getElem?_eq_getElem hi]
    exact List.getElem_mem hi
  refine ⟨List.count_pos_iff.mpr hmem, ?_⟩
  rw [final_weights, List.getD_eq_getElem?_getD, List.getD_eq_getElem?_getD]
  simp [List.getElem?_map, List.getElem?_eq_getElem hi]

/-- Witness for C9 at a concrete snapshot. -/
theorem final_weights_divisor_pos_witness :
    0 < (["A", "B"] : List String).count ((["A", "B"] : List String).getD 1 "") ∧
    (final_weights [("B", 1)] ["A", "B"]).getD 1 0 =
      dictGet [("B", 1)] ((["A", "B"] : List String).getD 1 "") /
        (((["A", "B"] : List String).count ((["A", "B"] : List String).getD 1 "") : ℕ) : ℚ) :=
  final_weights_divisor_pos [("B", 1)] ["A", "B"] 1 (by norm_num)

/-! ## Round-trip zero weights (C7) -/

/-- A pair of `(l.map f).zip l` is `(f a, a)` for some element `a` of `l`. -/
lemma mem_zip_map {α β : Type} (f : α → β) (l : List α) (p : β × α)
    (hp : p ∈ (l.map f).zip l) : p.1 = f p.2 ∧ p.2 ∈ l := by
  induction l with
  | nil => simp at hp
  | cons a t ih =>
    rw [List.map_cons, List.zip_cons_cons, List.mem_cons] at hp
    rcases hp with h | h
    · rw [h]
      exact ⟨rfl, by simp⟩
    · rcases ih h with ⟨h1, h2⟩
      exact ⟨h1, by simp [h2]⟩

/-- A normalized weight at a position whose score is nonpositive is zero. -/
lemma stw_getD_nonpos (scores : List ℚ) (i : Nat) (hi : i < scores.length)
    (h : scores.getD i 0 ≤ 0) : (scores_to_weights scores).getD i 0 = 0 := by
  by_cases ht : 0 < (scores.map (fun score => if score > 0 then score else 0)).sum
  · rw [stw_getD_of_total_pos scores i hi ht, if_neg (not_lt.mpr h), zero_div]
  · unfold scores_to_weights
    rw [if_neg ht, List.getD_eq_getElem?_getD]
    rcases Nat.lt_or_ge i scores.length with hlt | hge
    · simp [List.getElem?_replicate, hlt]
    · exact absurd hi (Nat.not_lt.mpr hge)

/-- Looking up identity `c` in the dict zipping keys with their normalized
weights yields 0 whenever `c`'s score is nonpositive. -/
lemma dictGet_zip_stw_nonpos (keys : List String) (score : String → ℚ)
    (c : String) (hc : score c ≤ 0) :
    dictGet (keys.zip (scores_to_weights (keys.map score))) c = 0 := by
  unfold dictGet
  set ws := scores_to_weights (keys.map score) with hws
  cases hfind : (keys.zip ws).find? (fun p => p.1 == c) with
  | none => rfl
  | some p =>
    have hpred := List.find?_some hfind
    have hkey : p.1 = c := by simpa using hpred
    have hmem : p ∈ keys.zip ws := List.mem_of_find?_eq_some hfind
    rcases List.mem_iff_getElem.mp hmem with ⟨i, hilen, hget⟩
    have hwslen : ws.length = keys.length := by
      rw [hws, scores_to_weights_length, List.length_map]
    have hik : i < keys.length := by
      rw [List.length_zip, hwslen, Nat.min_self] at hilen
      exact hilen
    have hiw : i < ws.length := by
      rw [hwslen]
      exact hik
    rw [List.getElem_zip] at hget
    have h1 : keys[i] = c := by
      have h0 : (keys[i], ws[i]).1 = c := by
        rw [hget]
        exact hkey
      simpa using h0
    have h2 : p.2 = ws[i] := by
      have h0 : (keys[i], ws[i]).2 = p.2 := by rw [hget]
      simpa using h0.symm
    have hsc : (keys.map score).getD i 0 ≤ 0 := by
      rw [List.getD_eq_getElem?_getD, List.getElem?_map,
        List.getElem?_eq_getElem hik]
      simpa [h1] using hc
    have hwzero : ws.getD i 0 = 0 := by
      rw [hws]
      exact stw_getD_nonpos (keys.map score) i (by simpa using hik) hsc
    have h3 : ws[i] = (0 : ℚ) := by
      rw [← hwzero, List.getD_eq_getElem?_getD, List.getElem?_eq_getElem hiw]
      rfl
    show p.2 = 0
    rw [h2, h3]

/-- C7: in a computed cycle, a position whose coldkey has unstake score 0
receives projected weight exactly 0; and in the projection, a position whose
coldkey is absent from the unique-weight mapping receives exactly 0. -/
theorem zero_score_zero_weight :
    (∀ ledger metagraph ws, main_step ledger metagraph = some ws →
      ∀ p ∈ ws.zip metagraph.coldkeys,
        compute_unstake_value ledger p.2 metagraph.last_step = 0 → p.1 = 0) ∧
    (∀ (d : List (String × ℚ)) (coldkeys : List String),
      ∀ p ∈ (final_weights d coldkeys).zip coldkeys,
        (∀ q ∈ d, q.1 ≠ p.2) → p.1 = 0) := by
  constructor
  · intro ledger metagraph ws hstep p hp hscore
    simp only [main_step] at hstep
    by_cases htrig : metagraph.tempo - 2 ≤ metagraph.blocks_since_last_step
    · rw [if_pos htrig] at hstep
      injection hstep with hws
      subst hws
      simp only [final_weights] at hp
      obtain ⟨hp1, -⟩ := mem_zip_map _ _ _ hp
      rw [hp1,
        dictGet_zip_stw_nonpos metagraph.coldkeys.dedup
          (fun cold => compute_unstake_value ledger cold metagraph.last_step)
          p.2 (le_of_eq hscore),
        zero_div]
    · rw [if_neg htrig] at hstep
      exact absurd hstep (by simp)
  · intro d coldkeys p hp hq
    simp only [final_weights] at hp
    obtain ⟨hp1, -⟩ := mem_zip_map _ _ _ hp
    have hfind : d.find? (fun q => q.1 == p.2) = none := by
      rw [List.find?_eq_none]
      intro x hx
      simpa using hq x hx
    rw [hp1]
    unfold dictGet
    rw [hfind]
    exact zero_div _

/-- Witness for C7 at a concrete cycle and a concrete projection. -/
theorem zero_score_zero_weight_witness :
    main_step (fun _ => LedgerResponse.ok []) ⟨[0], ["A"], 360, 100, 358⟩ =
      some [0] ∧
    ((0 : ℚ), "A").1 = 0 ∧ ((0 : ℚ), "B").1 = 0 :=
  ⟨by simp [main_step, compute_unstake_value, events, scores_to_weights,
      final_weights, dictGet, List.find?, List.count, List.countP],
   zero_score_zero_weight.1 (fun _ => LedgerResponse.ok [])
     ⟨[0], ["A"], 360, 100, 358⟩ [0]
     (by simp [main_step, compute_unstake_value, events, scores_to_weights,
        final_weights, dictGet, List.find?, List.count, List.countP])
     ((0 : ℚ), "A") (by simp) rfl,
   zero_score_zero_weight.2 [("A", 1)] ["B"] ((0 : ℚ), "B")
     (by simp [final_weights, dictGet, List.find?, List.count, List.countP])
     (by simp)⟩

/-! ## Ledger record parsing (C5, C6) -/

/-- Inversion of a successful record parse: every field conversion succeeded
and the event is built from the converted fields. -/
lemma parseRecord_some_inv (r : RawRecord) (e : DelegationEvent)
    (h : parseRecord r = some e) :
    ∃ b a q pr, parseIntField r.block_number = some b ∧
      (if r.raw_action.getD "" = "UNDELEGATE" then some EventAction.sell
       else if r.raw_action.getD "" = "DELEGATE" then some EventAction.buy
       else none) = some a ∧
      parseNumField r.amount = some q ∧
      parseNumField r.alpha_price_in_tao = some pr ∧
      e = { block := b, timestamp := r.timestamp.getD "", action := a,
            coldkey := r.nominator_ss58.getD "",
            hotkey := r.delegate_ss58.getD "",
            amount := q / 10 ^ 10, price := pr } := by
  unfold parseRecord at h
  cases hb : parseIntField r.block_number with
  | none =>
    rw [hb] at h
    simp at h
  | some b =>
    rw [hb] at h
    cases hact : (if r.raw_action.getD "" = "UNDELEGATE" then some EventAction.sell
                  else if r.raw_action.getD "" = "DELEGATE" then some EventAction.buy
                  else none) with
    | none =>
      rw [hact] at h
      simp at h
    | some a =>
      rw [hact] at h
      cases hq : parseNumField r.amount with
      | none =>
        rw [hq] at h
        simp at h
      | some q =>
        rw [hq] at h
        cases hpr : parseNumField r.alpha_price_in_tao with
        | none =>
          rw [hpr] at h
          simp at h
        | some pr =>
          rw [hpr] at h
          injection h with he
          exact ⟨b, a, q, pr, rfl, rfl, rfl, rfl, he.symm⟩

/-- C6: a parsed event's action is sell exactly for raw label UNDELEGATE and
buy exactly for DELEGATE, its amount is the record's converted raw amount
divided by 10^10, and a record with any other raw label parses to no event. -/
theorem parseRecord_action_mapping :
    (∀ r e, parseRecord r = some e →
      ((r.raw_action.getD "" = "UNDELEGATE" ∧ e.action = EventAction.sell) ∨
       (r.raw_action.getD "" = "DELEGATE" ∧ e.action = EventAction.buy)) ∧
      (∃ q, parseNumField r.amount = some q ∧ e.amount = q / 10 ^ 10)) ∧
    (∀ r, r.raw_action.getD "" ≠ "UNDELEGATE" →
      r.raw_action.getD "" ≠ "DELEGATE" → parseRecord r = none) := by
  constructor
  · intro r e h
    obtain ⟨b, a, q, pr, hb, hact, hq, hpr, he⟩ := parseRecord_some_inv r e h
    constructor
    · by_cases h1 : r.raw_action.getD "" = "UNDELEGATE"
      · rw [if_pos h1] at hact
        injection hact with ha
        left
        exact ⟨h1, by rw [he, ← ha]⟩
      · by_cases h2 : r.raw_action.getD "" = "DELEGATE"
        · rw [if_neg h1, if_pos h2] at hact
          injection hact with ha
          right
          exact ⟨h2, by rw [he, ← ha]⟩
        · rw [if_neg h1, if_neg h2] at hact
          simp at hact
    · exact ⟨q, hq, by rw [he]⟩
  · intro r h1 h2
    cases hpr : parseRecord r with
    | none => rfl
    | some e =>
      exfalso
      obtain ⟨b, a, q, pr, hb, hact, hq, hpp, he⟩ := parseRecord_some_inv r e hpr
      rw [if_neg h1, if_neg h2] at hact
      simp at hact

/-- Witness for C6 at concrete records. -/
theorem parseRecord_action_mapping_witness :
    (((validSellRecord.raw_action.getD "" = "UNDELEGATE" ∧
        sellEvent.action = EventAction.sell) ∨
      (validSellRecord.raw_action.getD "" = "DELEGATE" ∧
        sellEvent.action = EventAction.buy)) ∧
     (∃ q, parseNumField validSellRecord.amount = some q ∧
        sellEvent.amount = q / 10 ^ 10)) ∧
    parseRecord unknownActionRecord = none :=
  ⟨parseRecord_action_mapping.1 validSellRecord sellEvent (by
      simp [parseRecord, validSellRecord, parseIntField, parseNumField, sellEvent]
      norm_num),
   parseRecord_action_mapping.2 unknownActionRecord (by decide) (by decide)⟩

/-- C5 counterexample: a record whose `amount` field is missing is not
skipped; it is parsed with amount defaulted to 0, so a response holding one
valid record and one missing-amount record yields two events, not one. -/
theorem events_missing_amount_kept :
    missingAmountRecord.amount = JsonField.missing ∧
    (events (LedgerResponse.ok [validSellRecord, missingAmountRecord])).length
      = 2 ∧
    (events (LedgerResponse.ok [validSellRecord, missingAmountRecord])).map
      DelegationEvent.amount = [5, 0] := by
  refine ⟨rfl, ?_, ?_⟩
  · simp [events, parseRecord, validSellRecord, missingAmountRecord,
      parseIntField, parseNumField]
  · simp [events, parseRecord, validSellRecord, missingAmountRecord,
      parseIntField, parseNumField]
    norm_num

/-- C5 as amended: transport or JSON failures yield `[]` without raising; a
record whose numeric field is present but non-convertible is skipped, and
skipping such a record never affects the other records of the same response;
a record with a missing `amount` parses with amount 0 and one with a missing
nested `nominator.ss58` parses with an empty coldkey. -/
theorem events_error_handling :
    (events LedgerResponse.transportError = [] ∧
     events LedgerResponse.jsonError = []) ∧
    (∀ r, r.amount = JsonField.malformed ∨ r.block_number = JsonField.malformed ∨
      r.alpha_price_in_tao = JsonField.malformed → parseRecord r = none) ∧
    (∀ pre r post, parseRecord r = none →
      events (LedgerResponse.ok (pre ++ r :: post)) =
        events (LedgerResponse.ok (pre ++ post))) ∧
    (∀ r e, r.amount = JsonField.missing → parseRecord r = some e →
      e.amount = 0) ∧
    (∀ r e, r.nominator_ss58 = none → parseRecord r = some e →
      e.coldkey = "") := by
  refine ⟨⟨rfl, rfl⟩, ?_, ?_, ?_, ?_⟩
  · intro r h
    cases hpr : parseRecord r with
    | none => rfl
    | some e =>
      exfalso
      obtain ⟨b, a, q, pr, hb, hact, hq, hpp, he⟩ := parseRecord_some_inv r e hpr
      rcases h with h | h | h
      · rw [h] at hq
        simp [parseNumField] at hq
      · rw [h] at hb
        simp [parseIntField] at hb
      · rw [h] at hpp
        simp [parseNumField] at hpp
  · intro pre r post h
    simp [events, List.filterMap_append, List.filterMap_cons, h]
  · intro r e hm h
    obtain ⟨b, a, q, pr, hb, hact, hq, hpp, he⟩ := parseRecord_some_inv r e h
    rw [hm] at hq
    simp only [parseNumField] at hq
    injection hq with hq0
    rw [he, ← hq0]
    exact zero_div _
  · intro r e hm h
    obtain ⟨b, a, q, pr, hb, hact, hq, hpp, he⟩ := parseRecord_some_inv r e h
    rw [he]
    show r.nominator_ss58.getD "" = ""
    rw [hm]
    rfl

/-- Witness for the amended C5 at concrete records. -/
theorem events_error_handling_witness :
    parseRecord malformedAmountRecord = none ∧
    events (LedgerResponse.ok ([validSellRecord] ++ malformedAmountRecord :: [])) =
      events (LedgerResponse.ok ([validSellRecord] ++ [])) ∧
    missingAmountEvent.amount = 0 ∧
    missingNominatorEvent.coldkey = "" :=
  ⟨events_error_handling.2.1 malformedAmountRecord (Or.inl rfl),
   events_error_handling.2.2.1 [validSellRecord] malformedAmountRecord []
     (events_error_handling.2.1 malformedAmountRecord (Or.inl rfl)),
   events_error_handling.2.2.2.1 missingAmountRecord missingAmountEvent rfl
     (by
       simp [parseRecord, missingAmountRecord, parseIntField, parseNumField,
         missingAmountEvent]),
   events_error_handling.2.2.2.2 missingNominatorRecord missingNominatorEvent rfl
     (by
       simp [parseRecord, missingNominatorRecord, parseIntField, parseNumField,
         missingNominatorEvent]
       norm_num)⟩
